import Mathlib

/-
Verification of the machine-setup core (copy.rs, symlink.rs, run.rs) against
its natural-language specification.  The filesystem is modelled as a finite
association list from paths (segment lists) to nodes; helper modules that are
not part of the three source files (utils/directory, the validator, the shell
helpers) are modelled from the specification and marked as such in their doc
comments.
-/

set_option autoImplicit false

namespace MachineSetup

/-- A filesystem path, as its list of segments. -/
abbrev FsPath := List String

/-- A filesystem node: a regular file with content, a symbolic link with its
stored target path, or a directory. -/
inductive FsNode where
  | file (content : String)
  | link (target : FsPath)
  | dir
deriving DecidableEq

/-- The state of the destination filesystem: a finite map from paths to nodes,
represented as an association list. -/
abbrev FS := List (FsPath × FsNode)

/-- Look up the node stored at a path. -/
def FS.lookup (fs : FS) (p : FsPath) : Option FsNode :=
  match fs with
  | [] => none
  | (q, n) :: rest => if q = p then some n else FS.lookup rest p

/-- Store a node at a path, replacing any existing node there. -/
def FS.set (fs : FS) (p : FsPath) (n : FsNode) : FS :=
  match fs with
  | [] => [(p, n)]
  | (q, m) :: rest => if q = p then (p, n) :: rest else (q, m) :: FS.set rest p n

/-- Remove every entry stored at a path. -/
def FS.erase (fs : FS) (p : FsPath) : FS :=
  match fs with
  | [] => []
  | (q, m) :: rest => if q = p then FS.erase rest p else (q, m) :: FS.erase rest p

/-- Does `root` occur as an initial run of segments of `p`? -/
def isUnder (root p : FsPath) : Bool :=
  match root, p with
  | [], _ => true
  | _, [] => false
  | a :: as, b :: bs => a == b && isUnder as bs

/-- Drop `root` from the front of `p`, as `Path::strip_prefix` does; `none`
when `root` is not an initial run of `p`. -/
def dropRoot (root p : FsPath) : Option FsPath :=
  match root, p with
  | [], q => some q
  | _, [] => none
  | a :: as, b :: bs => if a = b then dropRoot as bs else none

/-- Semantics of `std::fs::remove_file`: removes a regular file or a symlink;
an error when the path is missing or holds a directory. -/
def removeFile (fs : FS) (p : FsPath) : Except String FS :=
  match fs.lookup p with
  | some (.file _) => .ok (fs.erase p)
  | some (.link _) => .ok (fs.erase p)
  | some .dir => .error "is a directory"
  | none => .error "no such file"

/-- Semantics of `symlink::symlink_file`: creates a symlink at `dst` pointing
at `src`; an error when anything already exists at `dst`. -/
def symlinkFile (fs : FS) (src dst : FsPath) : Except String FS :=
  match fs.lookup dst with
  | some _ => .error "destination already exists"
  | none => .ok (fs.set dst (.link src))

/-- Semantics of `symlink::remove_symlink_file` on unix: `fs::remove_file`. -/
def removeSymlinkFile (fs : FS) (p : FsPath) : Except String FS :=
  removeFile fs p

/-- Semantics of `std::fs::create_dir_all` at a single path: an existing
directory is not an error; a file or symlink in the way is. -/
def createDirAll (fs : FS) (p : FsPath) : Except String FS :=
  match fs.lookup p with
  | some .dir => .ok fs
  | some _ => .error "exists and is not a directory"
  | none => .ok (fs.set p .dir)

/-- Semantics of `Path::is_file`, which follows symlinks (one resolution step
in this model): true when the path holds a regular file or a symlink whose
target holds a regular file. -/
def isFile (fs : FS) (p : FsPath) : Bool :=
  match fs.lookup p with
  | some (.file _) => true
  | some (.link t) =>
    match fs.lookup t with
    | some (.file _) => true
    | _ => false
  | _ => false

/-- Semantics of `std::fs::remove_dir_all`: removes the directory and
everything beneath it; an error when the path is missing. -/
def removeDirAll (fs : FS) (p : FsPath) : Except String FS :=
  match fs.lookup p with
  | none => .error "no such directory"
  | some _ => .ok (fs.filter (fun e => !(isUnder p e.1)))

/-- The tagged config value consumed by every command (config_value.rs, whose
variants are `String`, `Bool`, `Array`, `Hash`). -/
inductive ConfigValue where
  | str (s : String)
  | bool (b : Bool)
  | arr (items : List ConfigValue)
  | hash (entries : List (String × ConfigValue))

/-- ConfigValue::as_str. -/
def ConfigValue.as_str : ConfigValue → Option String
  | .str s => some s
  | _ => none

/-- ConfigValue::as_bool. -/
def ConfigValue.as_bool : ConfigValue → Option Bool
  | .bool b => some b
  | _ => none

/-- ConfigValue::is_array. -/
def ConfigValue.is_array : ConfigValue → Bool
  | .arr _ => true
  | _ => false

/-- ConfigValue::as_vec. -/
def ConfigValue.as_vec : ConfigValue → Option (List ConfigValue)
  | .arr xs => some xs
  | _ => none

/-- ConfigValue::is_hash. -/
def ConfigValue.is_hash : ConfigValue → Bool
  | .hash _ => true
  | _ => false

/-- ConfigValue::as_hash. -/
def ConfigValue.as_hash : ConfigValue → Option (List (String × ConfigValue))
  | .hash h => some h
  | _ => none

/-- Lookup of a key in an ordered string-keyed mapping. -/
def hashGet (h : List (String × ConfigValue)) (k : String) : Option ConfigValue :=
  match h with
  | [] => none
  | (k', v) :: rest => if k' = k then some v else hashGet rest k

/-- The lifecycle mode enum. Modelled from the spec: `TaskRunnerMode` lives in
task_runner.rs, which is not among the source files; the spec gives its three
variants and their canonical lowercase names. -/
inductive TaskRunnerMode where
  | install
  | uninstall
  | update
deriving DecidableEq

/-- The canonical lowercase name of a mode, used as config key and log label. -/
def TaskRunnerMode.toName : TaskRunnerMode → String
  | .install => "install"
  | .uninstall => "uninstall"
  | .update => "update"

/-- A validation rule. Modelled from the spec: the validator module is not
among the source files; per spec 4.1 a rule is a predicate over a (possibly
absent) config value together with a human-readable message. -/
structure ValidationRule where
  check : Option ConfigValue → Bool
  message : String

/-- The IsString rule. Modelled from the spec: succeeds exactly on string
values; its message names the violated rule. -/
def IsString : ValidationRule :=
  ⟨fun v => match v with | some (.str _) => true | _ => false,
   "IsString: value is not a string"⟩

/-- The IsArray rule. Modelled from the spec: succeeds exactly on sequence
values; its message names the violated rule. -/
def IsArray : ValidationRule :=
  ⟨fun v => match v with | some (.arr _) => true | _ => false,
   "IsArray: value is not an array"⟩

/-- The OneOf combinator. Modelled from the spec: succeeds when any sub-rule
succeeds; on failure its message is the join of all sub-messages with " | ". -/
def OneOf (rules : List ValidationRule) : ValidationRule :=
  ⟨fun v => rules.any (fun r => r.check v),
   String.intercalate " | " (rules.map (fun r => r.message))⟩

/-- validate_args. Modelled from the spec: applies every rule to the value and
fails with the first failing rule's message. -/
def validate_args (v : Option ConfigValue) (rules : List ValidationRule) :
    Except String Unit :=
  match rules with
  | [] => .ok ()
  | r :: rs => if r.check v then validate_args v rs else .error r.message

/-- validate_named_args. Modelled from the spec: for each declared key the
value at that key (absent included) is run through the key's rules and a
failure is reported as the key name, a colon and the rule's message. -/
def validate_named_args (args : ConfigValue)
    (named : List (String × List ValidationRule)) : Except String Unit :=
  match named with
  | [] => .ok ()
  | (k, rules) :: rest =>
    match validate_args ((args.as_hash).bind (fun h => hashGet h k)) rules with
    | .error m => .error (k ++ ": " ++ m)
    | .ok _ => validate_named_args args rest

/-- arguments_are_named. Modelled from the spec: the mode-keyed form is the
one where the entry is a mapping. -/
def arguments_are_named (args : ConfigValue) : Bool :=
  args.is_hash

/-- get_commands_from_yaml (run.rs lines 29-39).  The Rust unwraps
`as_str()` on each array element (and on the value itself in the string
branch); `none` marks the panic that fires when an unwrap fails. -/
def get_commands_from_yaml (args : ConfigValue) : Option (List String) :=
  if args.is_array then
    ((args.as_vec).getD []).mapM ConfigValue.as_str
  else
    (args.as_str).map (fun s => [s])

/-- get_commands (run.rs lines 41-73): resolve the ordered command list for a
mode from either the shorthand form or the mode-keyed mapping form.  The outer
`none` marks a panic inside `get_commands_from_yaml`. -/
def get_commands (args : ConfigValue) (mode : TaskRunnerMode) :
    Option (Except String (List String)) :=
  let rules := [OneOf [IsArray, IsString]]
  let method := mode.toName
  if arguments_are_named args then
    match args.as_hash with
    | none => none
    | some h =>
      if (hashGet h method).isNone then some (.ok [])
      else
        match validate_named_args args [(method, rules)] with
        | .error e => some (.error e)
        | .ok _ =>
          match hashGet h method with
          | none => none
          | some v => (get_commands_from_yaml v).map .ok
  else
    match validate_args (some args) rules with
    | .error e => some (.error e)
    | .ok _ => (get_commands_from_yaml args).map .ok

/-- The observable behaviour of the spawned shell process, fixed per run:
whether the spawn succeeds, the spawn error text, the exit status, and the
captured output channels. -/
structure ProcEnv where
  spawnOk : Bool
  spawnErr : String
  exitSuccess : Bool
  stdoutStr : String
  stderrStr : String

/-- The temporary-script directory state: the set of script files present. -/
structure RunState where
  tempFiles : List String
deriving DecidableEq

/-- The name of the uniquely named script file. Modelled from the spec:
create_script_file (utils/shell, not among the source files) writes the
commands to a uniquely named file inside temp_dir. -/
def scriptName (temp_dir : String) : String :=
  temp_dir ++ "/machine_setup_script"

/-- run_commands (run.rs lines 75-125): resolve the commands, write the
temporary script, spawn `shell -c script`, drain stdout, wait, remove the
script, and map the exit status.  A spawn failure returns before the
`remove_file` call; a non-zero exit returns the literal "ERR" (the
stderr/stdout selection in the source is commented out).  The outer `none`
marks a panic. -/
def run_commands (env : ProcEnv) (commands : ConfigValue) (_shell : String)
    (mode : TaskRunnerMode) (temp_dir : String) (st : RunState) :
    Option (RunState × Except String Unit) :=
  match get_commands commands mode with
  | none => none
  | some (.error e) => some (st, .error e)
  | some (.ok _cmds) =>
    let script := scriptName temp_dir
    let st1 : RunState := ⟨st.tempFiles ++ [script]⟩
    if !env.spawnOk then
      some (st1, .error env.spawnErr)
    else
      let st2 : RunState := ⟨st1.tempFiles.erase script⟩
      if env.exitSuccess then some (st2, .ok ())
      else some (st2, .error "ERR")

/-- The slice of CommandConfig that run_task reads. -/
structure CommandConfig where
  default_shell : String
  temp_dir : String

/-- run_task (run.rs lines 127-161): check the args shape, pull "commands",
pull "shell" with the configured default, then run.  The Rust unwraps
`as_str()` on the shell value, so a present non-string shell panics (`none`). -/
def run_task (env : ProcEnv) (mode : TaskRunnerMode) (args : ConfigValue)
    (config : CommandConfig) (st : RunState) :
    Option (RunState × Except String Unit) :=
  match args.as_hash with
  | none => some (st, .error "args is not an object")
  | some params =>
    match hashGet params "commands" with
    | none => some (st, .error "\"commands\" key is missing in args")
    | some param_commands =>
      match ((hashGet params "shell").getD (.str config.default_shell)).as_str with
      | none => none
      | some param_shell =>
        run_commands env param_commands param_shell mode config.temp_dir st

/-- CopyDirCommand::update (copy.rs lines 48-50) is `unimplemented!()`: it
panics on every input, marked by `none`. -/
def copyDirUpdate (_args : ConfigValue) : Option (Except String Unit) :=
  none

/-- A source directory tree: the walked entries are regular files with content
and subdirectories. -/
inductive SrcTree where
  | file (name content : String)
  | dir (name : String) (children : List SrcTree)

/-- The entry name of a tree node. -/
def SrcTree.name : SrcTree → String
  | .file n _ => n
  | .dir n _ => n

/-- Does a relative path match the ignore list?  Modelled from the spec:
patterns match on relative path segments; the per-segment matcher is the
caller's pattern semantics, abstracted as a predicate on segments. -/
def pathIgnored (ign : String → Bool) (rel : FsPath) : Bool :=
  rel.any ign

/-- A per-file action: given the source file path, the mirrored destination
path and the file's content, transform the filesystem and optionally report
an error that aborts the walk. -/
abbrev WalkAction := FsPath → FsPath → String → FS → FS × Option String

/-- The outcome of a walk: the final filesystem, the first error encountered
(if any), and the (source, destination) pairs passed to the action in order. -/
structure WalkOut where
  fs : FS
  err : Option String
  visited : List (FsPath × FsPath)
deriving DecidableEq

mutual

/-- walk_files.  Modelled from the spec (utils/directory is not among the
source files): depth-first traversal with minimum depth 1; an entry matching
the ignore list is skipped without descending; a directory is mirrored with
`create_dir_all`; a regular file is passed to the action at the destination
obtained by joining the destination root with the path relative to the source
root (the `strip_prefix` computation of copy_files in copy.rs).  The walk
stops at the first error, matching the loop of copy_files. -/
def walkTree (act : WalkAction) (ign : String → Bool) (srcRoot dstRoot : FsPath) :
    SrcTree → FsPath → FS → WalkOut
  | .file n c, rel, fs =>
    let r := rel ++ [n]
    if pathIgnored ign r then ⟨fs, none, []⟩
    else
      let srcPath := srcRoot ++ r
      let dstPath :=
        match dropRoot srcRoot srcPath with
        | some q => dstRoot ++ q
        | none => dstRoot
      let res := act srcPath dstPath c fs
      ⟨res.1, res.2, [(srcPath, dstPath)]⟩
  | .dir n cs, rel, fs =>
    let r := rel ++ [n]
    if pathIgnored ign r then ⟨fs, none, []⟩
    else
      match createDirAll fs (dstRoot ++ r) with
      | .error e => ⟨fs, some e, []⟩
      | .ok fs1 => walkTreeList act ign srcRoot dstRoot cs r fs1

/-- The walk over a list of sibling entries, threading the filesystem and
stopping at the first error. -/
def walkTreeList (act : WalkAction) (ign : String → Bool)
    (srcRoot dstRoot : FsPath) :
    List SrcTree → FsPath → FS → WalkOut
  | [], _, fs => ⟨fs, none, []⟩
  | t :: ts, rel, fs =>
    let o := walkTree act ign srcRoot dstRoot t rel fs
    match o.err with
    | some e => ⟨o.fs, some e, o.visited⟩
    | none =>
      let o2 := walkTreeList act ign srcRoot dstRoot ts rel o.fs
      ⟨o2.fs, o2.err, o.visited ++ o2.visited⟩

end

mutual

/-- The regular files of a tree with their paths relative to the walk root,
paired with their contents, in walk order. -/
def treeFiles : SrcTree → FsPath → List (FsPath × String)
  | .file n c, rel => [(rel ++ [n], c)]
  | .dir n cs, rel => treeFilesList cs (rel ++ [n])

/-- The regular files of a sibling list, in walk order. -/
def treeFilesList : List SrcTree → FsPath → List (FsPath × String)
  | [], _ => []
  | t :: ts, rel => treeFiles t rel ++ treeFilesList ts rel

end

mutual

/-- The directories of a tree with their paths relative to the walk root. -/
def treeDirs : SrcTree → FsPath → List FsPath
  | .file _ _, _ => []
  | .dir n cs, rel => (rel ++ [n]) :: treeDirsList cs (rel ++ [n])

/-- The directories of a sibling list. -/
def treeDirsList : List SrcTree → FsPath → List FsPath
  | [], _ => []
  | t :: ts, rel => treeDirs t rel ++ treeDirsList ts rel

end

mutual

/-- Well-formedness of a tree: sibling names are pairwise distinct at every
level, as on a real filesystem. -/
def SrcTree.wfB : SrcTree → Bool
  | .file _ _ => true
  | .dir _ cs => wfListB cs

/-- Well-formedness of a sibling list. -/
def wfListB : List SrcTree → Bool
  | [] => true
  | t :: ts =>
    t.wfB && wfListB ts && !((ts.map SrcTree.name).contains t.name)
end

/-- The per-file action of link_files (symlink.rs lines 60-79): when `force`
holds and the destination is a regular file, `remove_file(target).ok()`
discards any removal error; then `symlink_file(src, target)` has its error
discarded by `.ok()`, so the action never reports a failure. -/
def linkAction (force : Bool) : WalkAction := fun src dst _c fs =>
  let fs1 :=
    if force && isFile fs dst then
      match removeFile fs dst with
      | .ok fs' => fs'
      | .error _ => fs
    else fs
  match symlinkFile fs1 src dst with
  | .ok fs' => (fs', none)
  | .error _ => (fs1, none)

/-- The per-file action of unlink_files (symlink.rs lines 88-96):
`remove_symlink_file(target)` has its error discarded by `.ok()`, so the
action never reports a failure. -/
def unlinkAction : WalkAction := fun _src dst _c fs =>
  match removeSymlinkFile fs dst with
  | .ok fs' => (fs', none)
  | .error _ => (fs, none)

/-- The per-file action of copy_files (copy.rs lines 79-80): `fs::copy`
overwrites an existing destination file and its error aborts the walk via
the question-mark operator. -/
def copyAction : WalkAction := fun _src dst c fs =>
  match fs.lookup dst with
  | some .dir => (fs, some "Failed to copy file: is a directory")
  | _ => (fs.set dst (.file c), none)

/-- A segment matcher for a literal ignore list: a segment matches when it
equals one of the patterns. -/
def ignMatcher (ignore : List String) : String → Bool := fun seg =>
  ignore.contains seg

/-- link_files (symlink.rs lines 47-80): walk the source tree applying the
symlink action. -/
def link_files (ts : List SrcTree) (source_dir destination_dir : FsPath)
    (ignore : List String) (force : Bool) (fs : FS) : WalkOut :=
  walkTreeList (linkAction force) (ignMatcher ignore) source_dir destination_dir ts [] fs

/-- unlink_files (symlink.rs lines 82-97): walk the source tree with an empty
ignore list, applying the unlink action. -/
def unlink_files (ts : List SrcTree) (source_dir destination_dir : FsPath)
    (fs : FS) : WalkOut :=
  walkTreeList unlinkAction (ignMatcher []) source_dir destination_dir ts [] fs

/-- copy_files (copy.rs lines 53-84): walk the source tree (no ignore filter),
applying the copy action. -/
def copy_files (ts : List SrcTree) (source_dir destination_dir : FsPath)
    (fs : FS) : WalkOut :=
  walkTreeList copyAction (fun _ => false) source_dir destination_dir ts [] fs

/-- The path-resolution environment: the canonicalization of raw path strings,
fixed for one invocation. -/
structure PathEnv where
  resolve : String → FsPath

/-- expand_path.  Modelled from the spec: expand_path (utils/directory, not
among the source files) resolves and canonicalizes a raw path; when
`create_if_missing` holds and the path does not exist it is created (as a
directory) before canonicalizing, and otherwise a missing path is an error. -/
def expand_path (env : PathEnv) (fs : FS) (raw : String)
    (create_if_missing : Bool) : Except String (FsPath × FS) :=
  let p := env.resolve raw
  match fs.lookup p with
  | some _ => .ok (p, fs)
  | none =>
    if create_if_missing then .ok (p, fs.set p .dir)
    else .error ("Path does not exist: " ++ raw)

/-- create_symlink (symlink.rs lines 99-121): expand the source (no creation),
check it exists, expand the destination (creating it if missing), fail when
the two resolved directories are equal, else link.  `ts` is the tree of
entries below the resolved source directory. -/
def create_symlink (env : PathEnv) (ts : List SrcTree) (source destination : String)
    (ignore : List String) (force : Bool) (fs : FS) : FS × Option String :=
  match expand_path env fs source false with
  | .error e => (fs, some e)
  | .ok (source_dir, fs0) =>
    if (fs0.lookup source_dir).isNone then
      (fs0, some ("Source directory does not exist: " ++ source))
    else
      match expand_path env fs0 destination true with
      | .error e => (fs0, some e)
      | .ok (destination_dir, fs1) =>
        if source_dir = destination_dir then
          (fs1, some ("Source and destination directories are the same: " ++ source))
        else
          let o := link_files ts source_dir destination_dir ignore force fs1
          (o.fs, o.err)

/-- remove_symlink (symlink.rs lines 123-128): expand both paths without
creation and unlink. -/
def remove_symlink (env : PathEnv) (ts : List SrcTree) (source destination : String)
    (fs : FS) : FS × Option String :=
  match expand_path env fs source false with
  | .error e => (fs, some e)
  | .ok (source_dir, fs0) =>
    match expand_path env fs0 destination false with
    | .error e => (fs0, some e)
    | .ok (destination_dir, fs1) =>
      let o := unlink_files ts source_dir destination_dir fs1
      (o.fs, o.err)

/-- copy_dir (copy.rs lines 86-111): expand the source (no creation), check it
exists, expand the destination (creating it if missing), fail when the two
resolved directories are equal, else copy. -/
def copy_dir (env : PathEnv) (ts : List SrcTree) (source destination : String)
    (fs : FS) : FS × Option String :=
  match expand_path env fs source false with
  | .error e => (fs, some e)
  | .ok (source_dir, fs0) =>
    if (fs0.lookup source_dir).isNone then
      (fs0, some ("Source directory does not exist: " ++ source))
    else
      match expand_path env fs0 destination true with
      | .error e => (fs0, some e)
      | .ok (destination_dir, fs1) =>
        if source_dir = destination_dir then
          (fs1, some ("Source and destination directories are the same: " ++ source))
        else
          let o := copy_files ts source_dir destination_dir fs1
          (o.fs, o.err)

/-- remove_dir (copy.rs lines 113-127): expand the target without creation and
remove the whole directory tree with `fs::remove_dir_all`. -/
def remove_dir (env : PathEnv) (target : String) (fs : FS) : FS × Option String :=
  match expand_path env fs target false with
  | .error e => (fs, some e)
  | .ok (target_dir, fs0) =>
    match removeDirAll fs0 target_dir with
    | .error e => (fs0, some e)
    | .ok fs1 => (fs1, none)

/-- should_force (symlink.rs lines 15-27): a non-mapping has no force; a
mapping's "force" key contributes `as_bool().unwrap_or(false)`. -/
def should_force (args : ConfigValue) : Bool :=
  if !args.is_hash then false
  else
    match args.as_hash with
    | none => false
    | some h =>
      match hashGet h "force" with
      | some f => (f.as_bool).getD false
      | none => false

/-- The resolved raw directory entry: source, target and ignore patterns. -/
structure DirSpecRaw where
  src : String
  target : String
  ignore : List String

/-- The string patterns of an ignore value. -/
def ignoreStrings : Option ConfigValue → List String
  | some (.arr xs) => xs.filterMap ConfigValue.as_str
  | _ => []

/-- get_source_and_target.  Modelled from the spec: (utils/directory, not
among the source files) a bare string is the source with the target supplied
by the calling command's convention; a mapping must supply src and target,
with ignore defaulting to empty. -/
def get_source_and_target (args : ConfigValue) (config_dir : String) :
    Except String DirSpecRaw :=
  match args with
  | .str s => .ok ⟨s, config_dir, []⟩
  | .hash h =>
    match hashGet h "src", hashGet h "target" with
    | some (.str s), some (.str t) => .ok ⟨s, t, ignoreStrings (hashGet h "ignore")⟩
    | _, _ => .error "src and target are required"
  | _ => .error "invalid directory entry"

/-- SymlinkCommand::install (symlink.rs lines 30-34): resolve the entry and
create the symlinks with the force flag from the args. -/
def symlinkInstall (env : PathEnv) (ts : List SrcTree) (args : ConfigValue)
    (config_dir : String) (fs : FS) : FS × Option String :=
  match get_source_and_target args config_dir with
  | .error e => (fs, some e)
  | .ok d => create_symlink env ts d.src d.target d.ignore (should_force args) fs

/-- SymlinkCommand::update (symlink.rs lines 42-44): the body is
`self.install(args, config)`. -/
def symlinkUpdate (env : PathEnv) (ts : List SrcTree) (args : ConfigValue)
    (config_dir : String) (fs : FS) : FS × Option String :=
  symlinkInstall env ts args config_dir fs

/-- The expected visit of one source file: skipped when its relative path
matches the ignore list, else the pair of its source path and its mirrored
destination path. -/
def mirrorF (ign : String → Bool) (srcRoot dstRoot : FsPath)
    (rc : FsPath × String) : Option (FsPath × FsPath) :=
  if pathIgnored ign rc.1 then none
  else some (srcRoot ++ rc.1, dstRoot ++ rc.1)

/-- All mirrored relative paths of a sibling list: its directories and the
paths of its regular files. -/
def pathsOf (ts : List SrcTree) (rel : FsPath) : List FsPath :=
  treeDirsList ts rel ++ (treeFilesList ts rel).map Prod.fst

/-- The link walk of link_files at an arbitrary relative level, with an empty
ignore list (the round-trip statements quantify over the level). -/
def linkWalk (force : Bool) (srcRoot dstRoot : FsPath) (ts : List SrcTree)
    (rel : FsPath) (fs : FS) : WalkOut :=
  walkTreeList (linkAction force) (ignMatcher []) srcRoot dstRoot ts rel fs

/-- The unlink walk of unlink_files at an arbitrary relative level. -/
def unlinkWalk (srcRoot dstRoot : FsPath) (ts : List SrcTree)
    (rel : FsPath) (fs : FS) : WalkOut :=
  walkTreeList unlinkAction (ignMatcher []) srcRoot dstRoot ts rel fs

theorem lookup_set_self (fs : FS) (p : FsPath) (n : FsNode) :
    (fs.set p n).lookup p = some n := by
  induction fs with
  | nil => simp [FS.set, FS.lookup]
  | cons e rest ih =>
    by_cases h : e.1 = p
    · simp [FS.set, h, FS.lookup]
    · simp [FS.set, h, FS.lookup, ih]

theorem lookup_set_ne (fs : FS) (p q : FsPath) (n : FsNode) (h : q ≠ p) :
    (fs.set p n).lookup q = fs.lookup q := by
  have hpq : ¬p = q := fun h' => h h'.symm
  induction fs with
  | nil => simp [FS.set, FS.lookup, hpq]
  | cons e rest ih =>
    obtain ⟨e1, e2⟩ := e
    by_cases he : e1 = p
    · subst he
      simp [FS.set, FS.lookup, hpq]
    · simp only [FS.set, he, if_false, FS.lookup]
      by_cases hq : e1 = q
      · simp [hq]
      · simp [hq, ih]

theorem lookup_erase_self (fs : FS) (p : FsPath) :
    (fs.erase p).lookup p = none := by
  induction fs with
  | nil => simp [FS.erase, FS.lookup]
  | cons e rest ih =>
    by_cases h : e.1 = p
    · simp [FS.erase, h, ih]
    · simp [FS.erase, h, FS.lookup, ih]

theorem lookup_erase_ne (fs : FS) (p q : FsPath) (h : q ≠ p) :
    (fs.erase p).lookup q = fs.lookup q := by
  have hpq : ¬p = q := fun h' => h h'.symm
  induction fs with
  | nil => simp [FS.erase]
  | cons e rest ih =>
    obtain ⟨e1, e2⟩ := e
    by_cases he : e1 = p
    · subst he
      simp [FS.erase, FS.lookup, hpq, ih]
    · simp only [FS.erase, he, if_false, FS.lookup]
      by_cases hq : e1 = q
      · simp [hq]
      · simp [hq, ih]

theorem dropRoot_append (a b : FsPath) : dropRoot a (a ++ b) = some b := by
  induction a with
  | nil => simp [dropRoot]
  | cons x xs ih => simp [dropRoot, ih]

theorem append_ne_of_ne {a p q : FsPath} (h : p ≠ q) : a ++ p ≠ a ++ q :=
  fun hc => h (List.append_cancel_left hc)

theorem append_cons_ne {rel : FsPath} {x y : String} {s t : FsPath}
    (h : x ≠ y) : rel ++ x :: s ≠ rel ++ y :: t := by
  intro hc
  have := List.append_cancel_left hc
  exact h (List.cons.inj this).1

theorem append_ne_self {a r : FsPath} (h : r ≠ []) : a ++ r ≠ a := by
  intro hc
  have : (a ++ r).length = a.length := by rw [hc]
  simp [List.length_append] at this
  exact h this

theorem append_ne_longer {a r : FsPath} {x : String} {s : FsPath} :
    a ++ r ≠ a ++ (r ++ x :: s) := by
  intro hc
  have := List.append_cancel_left hc
  have : r.length = (r ++ x :: s).length := by rw [← this]
  simp [List.length_append] at this

theorem pathIgnored_nil (rel : FsPath) :
    pathIgnored (ignMatcher []) rel = false := by
  simp [pathIgnored, ignMatcher]

theorem pathIgnored_append (ign : String → Bool) (a b : FsPath) :
    pathIgnored ign (a ++ b) = (pathIgnored ign a || pathIgnored ign b) := by
  simp [pathIgnored]

/-- C1: for every config entry whose resolved source path equals its resolved
target path (the source existing, as canonicalization of the source demands),
create_symlink and copy_dir fail with the "same directory" error and perform
no filesystem mutation: the returned filesystem is exactly the input one. -/
theorem same_dir_fails_without_mutation (env : PathEnv) (ts : List SrcTree)
    (ignore : List String) (force : Bool) (source destination : String) (fs : FS)
    (heq : env.resolve source = env.resolve destination)
    (hex : (fs.lookup (env.resolve source)).isSome = true) :
    create_symlink env ts source destination ignore force fs =
      (fs, some ("Source and destination directories are the same: " ++ source))
    ∧ copy_dir env ts source destination fs =
      (fs, some ("Source and destination directories are the same: " ++ source)) := by
  obtain ⟨n, hn⟩ := Option.isSome_iff_exists.mp hex
  have h1 : expand_path env fs source false = .ok (env.resolve source, fs) := by
    simp [expand_path, hn]
  have h2 : expand_path env fs destination true = .ok (env.resolve destination, fs) := by
    simp [expand_path, ← heq, hn]
  have hn' : fs.lookup (env.resolve destination) = some n := heq ▸ hn
  constructor
  · simp [create_symlink, h1, h2, hn, hn', heq]
  · simp [copy_dir, h1, h2, hn, hn', heq]

/-- Witness for C1 at a concrete input: both paths resolve to the existing
directory x, both commands fail with the "same directory" error, and the
filesystem is returned unchanged. -/
theorem same_dir_fails_without_mutation_witness :
    create_symlink ⟨fun _ => ["x"]⟩ [] "a" "b" [] false [(["x"], .dir)] =
      ([(["x"], .dir)], some ("Source and destination directories are the same: " ++ "a"))
    ∧ copy_dir ⟨fun _ => ["x"]⟩ [] "a" "b" [(["x"], .dir)] =
      ([(["x"], .dir)], some ("Source and destination directories are the same: " ++ "a")) :=
  same_dir_fails_without_mutation ⟨fun _ => ["x"]⟩ [] [] false "a" "b"
    [(["x"], .dir)] rfl rfl

/-- C2: a failing per-file action does not become the walk's error, contrary
to the claim: with the destination file missing, remove_symlink_file fails,
yet unlink_files reports success; and with the destination occupied and force
off, symlink_file fails, yet link_files reports success — the `.ok()` calls in
symlink.rs discard both errors. -/
theorem per_file_errors_swallowed :
    removeSymlinkFile [(["d"], .dir)] ["d", "example.txt"] = .error "no such file"
    ∧ (unlink_files [.file "example.txt" "x"] ["s"] ["d"] [(["d"], .dir)]).err = none
    ∧ symlinkFile [(["d"], .dir), (["d", "example.txt"], .file "old")]
        ["s", "example.txt"] ["d", "example.txt"] = .error "destination already exists"
    ∧ (link_files [.file "example.txt" "x"] ["s"] ["d"] [] false
        [(["d"], .dir), (["d", "example.txt"], .file "old")]).err = none :=
  ⟨rfl, rfl, rfl, rfl⟩

/-- C3: with force, an existing regular file at the mirrored destination is
replaced by a symlink to the source file; without force the file is left
untouched and no symlink is created, but create_symlink reports success
instead of failing, because the symlink_file error is discarded by `.ok()`;
a directory or a dangling symlink at the destination is left in place. -/
theorem force_replaces_but_no_force_reports_success :
    create_symlink ⟨fun r => [r]⟩ [.file "example.txt" "new"] "s" "d" [] true
        [(["s"], .dir), (["d"], .dir), (["d", "example.txt"], .file "old")] =
      ([(["s"], .dir), (["d"], .dir),
        (["d", "example.txt"], .link ["s", "example.txt"])], none)
    ∧ create_symlink ⟨fun r => [r]⟩ [.file "example.txt" "new"] "s" "d" [] false
        [(["s"], .dir), (["d"], .dir), (["d", "example.txt"], .file "old")] =
      ([(["s"], .dir), (["d"], .dir), (["d", "example.txt"], .file "old")], none)
    ∧ create_symlink ⟨fun r => [r]⟩ [.file "example.txt" "new"] "s" "d" [] true
        [(["s"], .dir), (["d"], .dir), (["d", "example.txt"], .dir)] =
      ([(["s"], .dir), (["d"], .dir), (["d", "example.txt"], .dir)], none)
    ∧ create_symlink ⟨fun r => [r]⟩ [.file "example.txt" "new"] "s" "d" [] false
        [(["s"], .dir), (["d"], .dir), (["d", "example.txt"], .link ["elsewhere"])] =
      ([(["s"], .dir), (["d"], .dir), (["d", "example.txt"], .link ["elsewhere"])], none) :=
  ⟨rfl, rfl, rfl, rfl⟩

/-- C4: on the spawn-failure path run_commands returns before the remove_file
call, leaving the temporary script file in temp_dir, contrary to the claim
that the script is removed on every exit path. -/
theorem script_leaks_on_spawn_failure :
    run_commands ⟨false, "No such file or directory", true, "", ""⟩
        (.str "echo hi") "nosuchshell" .install "/tmp" ⟨[]⟩ =
      some (⟨["/tmp/machine_setup_script"]⟩, .error "No such file or directory")
    ∧ scriptName "/tmp" = "/tmp/machine_setup_script" :=
  ⟨rfl, rfl⟩

/-- C5: a non-zero exit status yields the literal marker "ERR" even when the
captured standard error is non-empty (the stderr/stdout selection in run.rs is
commented out), so the reported message is not the captured standard error. -/
theorem nonzero_exit_returns_generic_marker :
    run_commands ⟨true, "", false, "out", "boom"⟩ (.str "exit 3") "bash"
        .install "/tmp" ⟨[]⟩ = some (⟨[]⟩, .error "ERR")
    ∧ "ERR" ≠ "boom" ∧ "ERR" ≠ "out" ∧ "ERR" ≠ "" :=
  ⟨rfl, by decide, by decide, by decide⟩

/-- C6: get_commands on a bare string returns the one-element list for every
mode; on a mapping without the queried mode's canonical name it returns an
empty command list without error; and on a mapping whose value for the mode is
a boolean it fails validation with a message naming both the IsArray and the
IsString violations. -/
theorem get_commands_shapes :
    (∀ (s : String) (mode : TaskRunnerMode),
      get_commands (.str s) mode = some (.ok [s]))
    ∧ (∀ (h : List (String × ConfigValue)) (mode : TaskRunnerMode),
        hashGet h mode.toName = none →
        get_commands (.hash h) mode = some (.ok []))
    ∧ get_commands (.hash [("install", .bool true)]) .install =
        some (.error
          "install: IsArray: value is not an array | IsString: value is not a string") := by
  refine ⟨fun s mode => rfl, fun h mode hnone => ?_, rfl⟩
  simp [get_commands, arguments_are_named, ConfigValue.is_hash,
    ConfigValue.as_hash, hnone]

/-- Witness for C6 at a concrete input: an install-keyed mapping queried under
the uninstall mode yields the empty command list without error. -/
theorem get_commands_shapes_witness :
    get_commands (.hash [("install", .str "x")]) .uninstall = some (.ok []) :=
  get_commands_shapes.2.1 [("install", .str "x")] .uninstall rfl

/-- C8: the code panics (modelled as none) on expected failure conditions,
contrary to the claim: get_commands panics on a command array containing a
non-string element, run_task panics on a non-string shell value, and
CopyDirCommand::update is unimplemented and panics on every input. -/
theorem expected_failures_panic :
    get_commands (.arr [.bool true]) .install = none
    ∧ run_task ⟨true, "", true, "", ""⟩ .install
        (.hash [("commands", .str "echo ok"), ("shell", .bool true)])
        ⟨"bash", "/tmp"⟩ ⟨[]⟩ = none
    ∧ copyDirUpdate (.hash []) = none :=
  ⟨rfl, rfl, rfl⟩

theorem mem_files_cons_file {n c : String} {ts : List SrcTree} {rel : FsPath}
    {rc : FsPath × String} :
    rc ∈ treeFilesList (.file n c :: ts) rel ↔
      rc = (rel ++ [n], c) ∨ rc ∈ treeFilesList ts rel := by
  simp [treeFilesList, treeFiles]

theorem mem_files_cons_dir {n : String} {cs ts : List SrcTree} {rel : FsPath}
    {rc : FsPath × String} :
    rc ∈ treeFilesList (.dir n cs :: ts) rel ↔
      rc ∈ treeFilesList cs (rel ++ [n]) ∨ rc ∈ treeFilesList ts rel := by
  simp [treeFilesList, treeFiles]

theorem mem_dirs_cons_file {n c : String} {ts : List SrcTree} {rel : FsPath}
    {r : FsPath} :
    r ∈ treeDirsList (.file n c :: ts) rel ↔ r ∈ treeDirsList ts rel := by
  simp [treeDirsList, treeDirs]

theorem mem_dirs_cons_dir {n : String} {cs ts : List SrcTree} {rel : FsPath}
    {r : FsPath} :
    r ∈ treeDirsList (.dir n cs :: ts) rel ↔
      r = rel ++ [n] ∨ r ∈ treeDirsList cs (rel ++ [n]) ∨ r ∈ treeDirsList ts rel := by
  simp [treeDirsList, treeDirs]

theorem mem_pathsOf_cons_file {n c : String} {ts : List SrcTree} {rel : FsPath}
    {p : FsPath} :
    p ∈ pathsOf (.file n c :: ts) rel ↔ p = rel ++ [n] ∨ p ∈ pathsOf ts rel := by
  simp only [pathsOf, List.mem_append, mem_dirs_cons_file, List.mem_map,
    mem_files_cons_file]
  constructor
  · rintro (hd | ⟨rc, (hrc | hrc), hfst⟩)
    · exact Or.inr (Or.inl hd)
    · subst hrc; exact Or.inl hfst.symm
    · exact Or.inr (Or.inr ⟨rc, hrc, hfst⟩)
  · rintro (he | hd | ⟨rc, hrc, hfst⟩)
    · exact Or.inr ⟨(rel ++ [n], c), Or.inl rfl, he.symm⟩
    · exact Or.inl hd
    · exact Or.inr ⟨rc, Or.inr hrc, hfst⟩

theorem mem_pathsOf_cons_dir {n : String} {cs ts : List SrcTree} {rel : FsPath}
    {p : FsPath} :
    p ∈ pathsOf (.dir n cs :: ts) rel ↔
      p = rel ++ [n] ∨ p ∈ pathsOf cs (rel ++ [n]) ∨ p ∈ pathsOf ts rel := by
  simp only [pathsOf, List.mem_append, mem_dirs_cons_dir, List.mem_map,
    mem_files_cons_dir]
  constructor
  · rintro ((he | hd | hd) | ⟨rc, (hrc | hrc), hfst⟩)
    · exact Or.inl he
    · exact Or.inr (Or.inl (Or.inl hd))
    · exact Or.inr (Or.inr (Or.inl hd))
    · exact Or.inr (Or.inl (Or.inr ⟨rc, hrc, hfst⟩))
    · exact Or.inr (Or.inr (Or.inr ⟨rc, hrc, hfst⟩))
  · rintro (he | (hd | ⟨rc, hrc, hfst⟩) | (hd | ⟨rc, hrc, hfst⟩))
    · exact Or.inl (Or.inl he)
    · exact Or.inl (Or.inr (Or.inl hd))
    · exact Or.inr ⟨rc, Or.inl hrc, hfst⟩
    · exact Or.inl (Or.inr (Or.inr hd))
    · exact Or.inr ⟨rc, Or.inr hrc, hfst⟩

theorem wf_cons {t : SrcTree} {ts : List SrcTree} :
    wfListB (t :: ts) = true ↔
      t.wfB = true ∧ wfListB ts = true ∧ t.name ∉ ts.map SrcTree.name := by
  simp [wfListB, List.contains, and_assoc]

theorem pathsExtend : ∀ (ts : List SrcTree) (rel p : FsPath),
    p ∈ pathsOf ts rel → ∃ t ∈ ts, ∃ suf, p = rel ++ t.name :: suf
  | [], rel, p, hp => by simp [pathsOf, treeDirsList, treeFilesList] at hp
  | .file n c :: ts, rel, p, hp => by
    rcases mem_pathsOf_cons_file.mp hp with he | hmem
    · exact ⟨.file n c, List.mem_cons_self _ _, [], by simpa [SrcTree.name] using he⟩
    · obtain ⟨t, ht, suf, hsuf⟩ := pathsExtend ts rel p hmem
      exact ⟨t, List.mem_cons_of_mem _ ht, suf, hsuf⟩
  | .dir n cs :: ts, rel, p, hp => by
    rcases mem_pathsOf_cons_dir.mp hp with he | hmem | hmem
    · exact ⟨.dir n cs, List.mem_cons_self _ _, [], by simpa [SrcTree.name] using he⟩
    · obtain ⟨t, _, suf, hsuf⟩ := pathsExtend cs (rel ++ [n]) p hmem
      refine ⟨.dir n cs, List.mem_cons_self _ _, t.name :: suf, ?_⟩
      simpa [SrcTree.name, List.append_assoc] using hsuf
    · obtain ⟨t, ht, suf, hsuf⟩ := pathsExtend ts rel p hmem
      exact ⟨t, List.mem_cons_of_mem _ ht, suf, hsuf⟩

theorem file_fst_mem_pathsOf {ts : List SrcTree} {rel : FsPath}
    {rc : FsPath × String} (h : rc ∈ treeFilesList ts rel) :
    rc.1 ∈ pathsOf ts rel := by
  exact List.mem_append_right _ (List.mem_map_of_mem _ h)

theorem dir_mem_pathsOf {ts : List SrcTree} {rel : FsPath} {r : FsPath}
    (h : r ∈ treeDirsList ts rel) : r ∈ pathsOf ts rel :=
  List.mem_append_left _ h

theorem nodupFiles : ∀ (ts : List SrcTree) (rel : FsPath),
    wfListB ts = true → ((treeFilesList ts rel).map Prod.fst).Nodup
  | [], rel, _ => by simp [treeFilesList]
  | .file n c :: ts, rel, hwf => by
    obtain ⟨_, hwts, hname⟩ := wf_cons.mp hwf
    simp only [SrcTree.name] at hname
    simp only [treeFilesList, treeFiles, List.map_append, List.singleton_append,
      List.map_cons, List.map_nil]
    refine List.Nodup.cons ?_ (nodupFiles ts rel hwts)
    intro hmem
    obtain ⟨rc, hrc, hfst⟩ := List.mem_map.mp hmem
    obtain ⟨t, ht, suf, hsuf⟩ := pathsExtend ts rel rc.1 (file_fst_mem_pathsOf hrc)
    rw [hfst] at hsuf
    have := List.append_cancel_left hsuf
    have hn : n = t.name := (List.cons.inj this).1
    rw [hn] at hname
    exact hname (List.mem_map_of_mem _ ht)
  | .dir n cs :: ts, rel, hwf => by
    obtain ⟨hwt, hwts, hname⟩ := wf_cons.mp hwf
    simp only [SrcTree.name] at hname
    have hwcs : wfListB cs = true := by simpa [SrcTree.wfB] using hwt
    simp only [treeFilesList, treeFiles, List.map_append]
    refine List.Nodup.append (nodupFiles cs (rel ++ [n]) hwcs)
      (nodupFiles ts rel hwts) ?_
    intro p hp hq
    obtain ⟨rc, hrc, hfst⟩ := List.mem_map.mp hp
    obtain ⟨rc', hrc', hfst'⟩ := List.mem_map.mp hq
    obtain ⟨t, _, suf, hsuf⟩ :=
      pathsExtend cs (rel ++ [n]) rc.1 (file_fst_mem_pathsOf hrc)
    obtain ⟨t', ht', suf', hsuf'⟩ :=
      pathsExtend ts rel rc'.1 (file_fst_mem_pathsOf hrc')
    rw [hfst] at hsuf
    rw [hfst'] at hsuf'
    have hne : n ≠ t'.name := fun hn => hname (by
      rw [hn]; exact List.mem_map_of_mem _ ht')
    have h1 : p = rel ++ n :: (t.name :: suf) := by
      simpa [List.append_assoc] using hsuf
    exact append_cons_ne hne (h1.symm.trans hsuf')

theorem files_all_ignored {ign : String → Bool} {cs : List SrcTree} {r : FsPath}
    (hig : pathIgnored ign r = true) {rc : FsPath × String}
    (hrc : rc ∈ treeFilesList cs r) : pathIgnored ign rc.1 = true := by
  obtain ⟨t, _, suf, hsuf⟩ := pathsExtend cs r rc.1 (file_fst_mem_pathsOf hrc)
  rw [hsuf, pathIgnored_append, hig]
  simp

theorem walk_visited_eq (act : WalkAction) (ign : String → Bool)
    (srcRoot dstRoot : FsPath)
    (hact : ∀ s d c f, (act s d c f).2 = none) :
    ∀ (ts : List SrcTree) (rel : FsPath) (fs : FS),
      (walkTreeList act ign srcRoot dstRoot ts rel fs).err = none →
      (walkTreeList act ign srcRoot dstRoot ts rel fs).visited =
        (treeFilesList ts rel).filterMap (mirrorF ign srcRoot dstRoot)
  | [] => by
    intro rel fs _
    simp [walkTreeList, treeFilesList]
  | .file n c :: ts => by
    intro rel fs herr
    cases hig : pathIgnored ign (rel ++ [n]) with
    | true =>
      simp only [walkTreeList, walkTree, hig, if_true] at herr ⊢
      simp only [treeFilesList, treeFiles, List.singleton_append,
        List.filterMap_cons, mirrorF, hig, if_true]
      simpa using walk_visited_eq act ign srcRoot dstRoot hact ts rel fs
        (by simpa using herr)
    | false =>
      simp only [walkTreeList, walkTree, hig, Bool.false_eq_true, if_false,
        dropRoot_append, hact] at herr ⊢
      simp only [treeFilesList, treeFiles, List.singleton_append,
        List.filterMap_cons, mirrorF, hig, Bool.false_eq_true, if_false]
      simpa using walk_visited_eq act ign srcRoot dstRoot hact ts rel
        (act (srcRoot ++ (rel ++ [n])) (dstRoot ++ (rel ++ [n])) c fs).1
        (by simpa using herr)
  | .dir n cs :: ts => by
    intro rel fs herr
    cases hig : pathIgnored ign (rel ++ [n]) with
    | true =>
      simp only [walkTreeList, walkTree, hig, if_true] at herr ⊢
      have h0 : (treeFilesList cs (rel ++ [n])).filterMap
          (mirrorF ign srcRoot dstRoot) = [] := by
        rw [List.filterMap_eq_nil_iff]
        intro rc hrc
        simp [mirrorF, files_all_ignored hig hrc]
      simp only [treeFilesList, treeFiles, List.filterMap_append, h0,
        List.nil_append]
      simpa using walk_visited_eq act ign srcRoot dstRoot hact ts rel fs
        (by simpa using herr)
    | false =>
      cases hcd : createDirAll fs (dstRoot ++ (rel ++ [n])) with
      | error e =>
        simp [walkTreeList, walkTree, hig, hcd] at herr
      | ok fs1 =>
        simp only [walkTreeList, walkTree, hig, Bool.false_eq_true, if_false,
          hcd] at herr ⊢
        cases ho : (walkTreeList act ign srcRoot dstRoot cs (rel ++ [n]) fs1).err with
        | some e => simp [ho] at herr
        | none =>
          simp only [ho] at herr ⊢
          simp only [treeFilesList, treeFiles, List.filterMap_append]
          have h1 := walk_visited_eq act ign srcRoot dstRoot hact cs (rel ++ [n]) fs1 ho
          have h2 := walk_visited_eq act ign srcRoot dstRoot hact ts rel
            (walkTreeList act ign srcRoot dstRoot cs (rel ++ [n]) fs1).fs
            (by simpa using herr)
          simp [h1, h2]
termination_by ts => sizeOf ts

theorem count_mirror_zero (ign : String → Bool) (srcRoot dstRoot : FsPath)
    (p : FsPath) :
    ∀ l : List (FsPath × String), p ∉ l.map Prod.fst →
      (l.filterMap (mirrorF ign srcRoot dstRoot)).count
        (srcRoot ++ p, dstRoot ++ p) = 0 := by
  intro l
  induction l with
  | nil => simp
  | cons qc rest ih =>
    intro hnot
    simp only [List.map_cons, List.mem_cons, not_or] at hnot
    obtain ⟨hne, hrest⟩ := hnot
    simp only [List.filterMap_cons, mirrorF]
    by_cases hg : pathIgnored ign qc.1 = true
    · simp only [hg, if_true]
      exact ih hrest
    · have hg' : pathIgnored ign qc.1 = false := by simpa using hg
      have hne' : ¬qc.1 = p := fun h => hne h.symm
      simp [hg', List.count_cons, hne', ih hrest]

theorem count_mirror_one (ign : String → Bool) (srcRoot dstRoot : FsPath)
    (p : FsPath) :
    ∀ l : List (FsPath × String), (l.map Prod.fst).Nodup →
      p ∈ l.map Prod.fst → pathIgnored ign p = false →
      (l.filterMap (mirrorF ign srcRoot dstRoot)).count
        (srcRoot ++ p, dstRoot ++ p) = 1 := by
  intro l
  induction l with
  | nil => simp
  | cons qc rest ih =>
    intro hnd hmem hni
    simp only [List.map_cons, List.nodup_cons] at hnd
    obtain ⟨hq, hndr⟩ := hnd
    simp only [List.map_cons, List.mem_cons] at hmem
    simp only [List.filterMap_cons, mirrorF]
    rcases hmem with he | hmem
    · subst he
      simp [hni, List.count_cons,
        count_mirror_zero ign srcRoot dstRoot qc.1 rest hq]
    · have hne : qc.1 ≠ p := fun h => hq (h ▸ hmem)
      by_cases hg : pathIgnored ign qc.1 = true
      · simp only [hg, if_true]
        exact ih hndr hmem hni
      · have hg' : pathIgnored ign qc.1 = false := by simpa using hg
        simp [hg', List.count_cons, hne, ih hndr hmem hni]

theorem linkAction_err_none (force : Bool) (s d : FsPath) (c : String) (f : FS) :
    (linkAction force s d c f).2 = none := by
  simp only [linkAction]
  split <;> rfl

theorem unlinkAction_err_none (s d : FsPath) (c : String) (f : FS) :
    (unlinkAction s d c f).2 = none := by
  simp only [unlinkAction]
  split <;> rfl

theorem pathsOf_ne_head {ts : List SrcTree} {rel p : FsPath} {n : String}
    (hname : n ∉ ts.map SrcTree.name) (hp : p ∈ pathsOf ts rel) :
    p ≠ rel ++ [n] := by
  obtain ⟨t, ht, suf, hsuf⟩ := pathsExtend ts rel p hp
  rw [hsuf]
  intro hc
  have h0 := List.append_cancel_left hc
  have h1 : t.name = n := (List.cons.inj h0).1
  rw [← h1] at hname
  exact hname (List.mem_map_of_mem _ ht)

theorem pathsOf_child_ne {cs ts : List SrcTree} {rel : FsPath} {n : String}
    (hname : n ∉ ts.map SrcTree.name) {p q : FsPath}
    (hp : p ∈ pathsOf cs (rel ++ [n])) (hq : q ∈ pathsOf ts rel) : p ≠ q := by
  obtain ⟨t, _, suf, hsuf⟩ := pathsExtend cs (rel ++ [n]) p hp
  obtain ⟨t', ht', suf', hsuf'⟩ := pathsExtend ts rel q hq
  have h1 : p = rel ++ n :: (t.name :: suf) := by
    simpa [List.append_assoc] using hsuf
  rw [h1, hsuf']
  exact append_cons_ne (fun hn => hname (by
    rw [hn]; exact List.mem_map_of_mem _ ht'))

theorem head_ne_child {cs : List SrcTree} {rel : FsPath} {n : String}
    {p : FsPath} (hp : p ∈ pathsOf cs (rel ++ [n])) : rel ++ [n] ≠ p := by
  obtain ⟨t, _, suf, hsuf⟩ := pathsExtend cs (rel ++ [n]) p hp
  rw [hsuf]
  intro hc
  have := congrArg List.length hc
  simp [List.length_append] at this

theorem dirs_ne_files : ∀ (ts : List SrcTree) (rel : FsPath),
    wfListB ts = true →
    ∀ r ∈ treeDirsList ts rel, ∀ rc ∈ treeFilesList ts rel, r ≠ rc.1
  | [], rel, _ => by simp [treeDirsList]
  | .file n c :: ts, rel, hwf => by
    obtain ⟨_, hwts, hname⟩ := wf_cons.mp hwf
    simp only [SrcTree.name] at hname
    intro r hr rc hrc
    rw [mem_dirs_cons_file] at hr
    rcases mem_files_cons_file.mp hrc with he | hm
    · subst he
      exact pathsOf_ne_head hname (dir_mem_pathsOf hr)
    · exact dirs_ne_files ts rel hwts r hr rc hm
  | .dir n cs :: ts, rel, hwf => by
    obtain ⟨hwt, hwts, hname⟩ := wf_cons.mp hwf
    simp only [SrcTree.name] at hname
    have hwcs : wfListB cs = true := by simpa [SrcTree.wfB] using hwt
    intro r hr rc hrc
    rcases mem_dirs_cons_dir.mp hr with he | hm | hm
    · subst he
      rcases mem_files_cons_dir.mp hrc with hf | hf
      · exact head_ne_child (file_fst_mem_pathsOf hf)
      · exact (pathsOf_ne_head hname (file_fst_mem_pathsOf hf)).symm
    · rcases mem_files_cons_dir.mp hrc with hf | hf
      · exact dirs_ne_files cs (rel ++ [n]) hwcs r hm rc hf
      · exact pathsOf_child_ne hname (dir_mem_pathsOf hm) (file_fst_mem_pathsOf hf)
    · rcases mem_files_cons_dir.mp hrc with hf | hf
      · exact (pathsOf_child_ne hname (file_fst_mem_pathsOf hf)
          (dir_mem_pathsOf hm)).symm
      · exact dirs_ne_files ts rel hwts r hm rc hf
termination_by ts => sizeOf ts

theorem isUnder_refl (p : FsPath) : isUnder p p = true := by
  induction p with
  | nil => rfl
  | cons a as ih => simp [isUnder, ih]

theorem lookup_filter_under (root : FsPath) :
    ∀ (fs : FS) (q : FsPath),
      (FS.lookup (fs.filter (fun e => !(isUnder root e.1))) q)
        = if isUnder root q = true then none else fs.lookup q := by
  intro fs
  induction fs with
  | nil =>
    intro q
    simp [FS.lookup]
  | cons e rest ih =>
    intro q
    obtain ⟨p, m⟩ := e
    by_cases hu : isUnder root p = true
    · rw [List.filter_cons, if_neg (by simp [hu])]
      rw [ih q]
      by_cases hpq : p = q
      · subst hpq
        simp [hu, FS.lookup]
      · simp [FS.lookup, hpq]
    · have hu' : isUnder root p = false := by simpa using hu
      rw [List.filter_cons, if_pos (by simp [hu'])]
      by_cases hpq : p = q
      · subst hpq
        simp [FS.lookup, hu']
      · simp only [FS.lookup, hpq, if_false]
        exact ih q

theorem link_walk_effect (force : Bool) (srcRoot dstRoot : FsPath) :
    ∀ (ts : List SrcTree) (rel : FsPath) (fs : FS),
      wfListB ts = true →
      (∀ p ∈ pathsOf ts rel, fs.lookup (dstRoot ++ p) = none) →
      (linkWalk force srcRoot dstRoot ts rel fs).err = none
      ∧ (∀ q : FsPath, (∀ p ∈ pathsOf ts rel, q ≠ dstRoot ++ p) →
          (linkWalk force srcRoot dstRoot ts rel fs).fs.lookup q = fs.lookup q)
      ∧ (∀ r ∈ treeDirsList ts rel,
          (linkWalk force srcRoot dstRoot ts rel fs).fs.lookup (dstRoot ++ r)
            = some .dir)
      ∧ (∀ rc ∈ treeFilesList ts rel,
          (linkWalk force srcRoot dstRoot ts rel fs).fs.lookup (dstRoot ++ rc.1)
            = some (.link (srcRoot ++ rc.1)))
  | [], rel, fs => by
    intro _ _
    refine ⟨rfl, fun q _ => rfl, ?_, ?_⟩ <;> simp [treeDirsList, treeFilesList]
  | .file n c :: ts, rel, fs => by
    intro hwf hvac
    obtain ⟨_, hwts, hname⟩ := wf_cons.mp hwf
    simp only [SrcTree.name] at hname
    have hvr : fs.lookup (dstRoot ++ (rel ++ [n])) = none :=
      hvac _ (mem_pathsOf_cons_file.mpr (Or.inl rfl))
    have hvac' : ∀ p ∈ pathsOf ts rel,
        (fs.set (dstRoot ++ (rel ++ [n]))
          (.link (srcRoot ++ (rel ++ [n])))).lookup (dstRoot ++ p) = none := by
      intro p hp
      rw [lookup_set_ne _ _ _ _ (append_ne_of_ne (pathsOf_ne_head hname hp))]
      exact hvac _ (mem_pathsOf_cons_file.mpr (Or.inr hp))
    obtain ⟨e2, f2, d2, l2⟩ := link_walk_effect force srcRoot dstRoot ts rel
      (fs.set (dstRoot ++ (rel ++ [n])) (.link (srcRoot ++ (rel ++ [n]))))
      hwts hvac'
    have hstep : linkWalk force srcRoot dstRoot (.file n c :: ts) rel fs =
        ⟨(linkWalk force srcRoot dstRoot ts rel
            (fs.set (dstRoot ++ (rel ++ [n]))
              (.link (srcRoot ++ (rel ++ [n]))))).fs,
         (linkWalk force srcRoot dstRoot ts rel
            (fs.set (dstRoot ++ (rel ++ [n]))
              (.link (srcRoot ++ (rel ++ [n]))))).err,
         (srcRoot ++ (rel ++ [n]), dstRoot ++ (rel ++ [n])) ::
           (linkWalk force srcRoot dstRoot ts rel
              (fs.set (dstRoot ++ (rel ++ [n]))
                (.link (srcRoot ++ (rel ++ [n]))))).visited⟩ := by
      simp [linkWalk, walkTreeList, walkTree, pathIgnored_nil, dropRoot_append,
        linkAction, isFile, symlinkFile, hvr]
    refine ⟨?_, ?_, ?_, ?_⟩
    · rw [hstep]
      exact e2
    · intro q hq
      rw [hstep]
      rw [f2 q (fun p hp => hq _ (mem_pathsOf_cons_file.mpr (Or.inr hp)))]
      exact lookup_set_ne _ _ _ _ (hq _ (mem_pathsOf_cons_file.mpr (Or.inl rfl)))
    · intro r hr
      rw [mem_dirs_cons_file] at hr
      rw [hstep]
      exact d2 r hr
    · intro rc hrc
      rcases mem_files_cons_file.mp hrc with he | hm
      · subst he
        rw [hstep]
        rw [f2 _ (fun p hp =>
          append_ne_of_ne (pathsOf_ne_head hname hp).symm)]
        exact lookup_set_self _ _ _
      · rw [hstep]
        exact l2 rc hm
  | .dir n cs :: ts, rel, fs => by
    intro hwf hvac
    obtain ⟨hwt, hwts, hname⟩ := wf_cons.mp hwf
    simp only [SrcTree.name] at hname
    have hwcs : wfListB cs = true := by simpa [SrcTree.wfB] using hwt
    have hvr : fs.lookup (dstRoot ++ (rel ++ [n])) = none :=
      hvac _ (mem_pathsOf_cons_dir.mpr (Or.inl rfl))
    have hvac_cs : ∀ p ∈ pathsOf cs (rel ++ [n]),
        (fs.set (dstRoot ++ (rel ++ [n])) .dir).lookup (dstRoot ++ p) = none := by
      intro p hp
      rw [lookup_set_ne _ _ _ _ (append_ne_of_ne (head_ne_child hp).symm)]
      exact hvac _ (mem_pathsOf_cons_dir.mpr (Or.inr (Or.inl hp)))
    obtain ⟨e1, f1, d1, l1⟩ := link_walk_effect force srcRoot dstRoot cs
      (rel ++ [n]) (fs.set (dstRoot ++ (rel ++ [n])) .dir) hwcs hvac_cs
    have hvac_ts : ∀ p ∈ pathsOf ts rel,
        (linkWalk force srcRoot dstRoot cs (rel ++ [n])
          (fs.set (dstRoot ++ (rel ++ [n])) .dir)).fs.lookup (dstRoot ++ p)
          = none := by
      intro p hp
      rw [f1 _ (fun p' hp' =>
        (append_ne_of_ne (pathsOf_child_ne hname hp' hp)).symm)]
      rw [lookup_set_ne _ _ _ _ (append_ne_of_ne (pathsOf_ne_head hname hp))]
      exact hvac _ (mem_pathsOf_cons_dir.mpr (Or.inr (Or.inr hp)))
    obtain ⟨e2, f2, d2, l2⟩ := link_walk_effect force srcRoot dstRoot ts rel
      (linkWalk force srcRoot dstRoot cs (rel ++ [n])
        (fs.set (dstRoot ++ (rel ++ [n])) .dir)).fs hwts hvac_ts
    have hstep : linkWalk force srcRoot dstRoot (.dir n cs :: ts) rel fs =
        ⟨(linkWalk force srcRoot dstRoot ts rel
            (linkWalk force srcRoot dstRoot cs (rel ++ [n])
              (fs.set (dstRoot ++ (rel ++ [n])) .dir)).fs).fs,
         (linkWalk force srcRoot dstRoot ts rel
            (linkWalk force srcRoot dstRoot cs (rel ++ [n])
              (fs.set (dstRoot ++ (rel ++ [n])) .dir)).fs).err,
         (linkWalk force srcRoot dstRoot cs (rel ++ [n])
            (fs.set (dstRoot ++ (rel ++ [n])) .dir)).visited ++
           (linkWalk force srcRoot dstRoot ts rel
              (linkWalk force srcRoot dstRoot cs (rel ++ [n])
                (fs.set (dstRoot ++ (rel ++ [n])) .dir)).fs).visited⟩ := by
      have he1 := e1
      simp only [linkWalk] at he1 ⊢
      simp [walkTreeList, walkTree, pathIgnored_nil, createDirAll, hvr, he1]
    refine ⟨?_, ?_, ?_, ?_⟩
    · rw [hstep]
      exact e2
    · intro q hq
      rw [hstep]
      rw [f2 q (fun p hp => hq _ (mem_pathsOf_cons_dir.mpr (Or.inr (Or.inr hp))))]
      rw [f1 q (fun p hp => hq _ (mem_pathsOf_cons_dir.mpr (Or.inr (Or.inl hp))))]
      exact lookup_set_ne _ _ _ _ (hq _ (mem_pathsOf_cons_dir.mpr (Or.inl rfl)))
    · intro r hr
      rcases mem_dirs_cons_dir.mp hr with he | hm | hm
      · subst he
        rw [hstep]
        rw [f2 _ (fun p hp => append_ne_of_ne (pathsOf_ne_head hname hp).symm)]
        rw [f1 _ (fun p hp => append_ne_of_ne (head_ne_child hp))]
        exact lookup_set_self _ _ _
      · rw [hstep]
        rw [f2 _ (fun p hp =>
          append_ne_of_ne (pathsOf_child_ne hname (dir_mem_pathsOf hm) hp))]
        exact d1 r hm
      · rw [hstep]
        exact d2 r hm
    · intro rc hrc
      rcases mem_files_cons_dir.mp hrc with hm | hm
      · rw [hstep]
        rw [f2 _ (fun p hp =>
          append_ne_of_ne (pathsOf_child_ne hname (file_fst_mem_pathsOf hm) hp))]
        exact l1 rc hm
      · rw [hstep]
        exact l2 rc hm
termination_by ts => sizeOf ts

theorem unlinkAction_lookup_self {fs : FS} {d : FsPath} (s : FsPath) (c : String)
    (hnd : fs.lookup d ≠ some .dir) :
    ((unlinkAction s d c fs).1).lookup d = none := by
  simp only [unlinkAction, removeSymlinkFile, removeFile]
  cases hl : fs.lookup d with
  | none => simp [hl]
  | some node =>
    cases node with
    | file content => simp [lookup_erase_self]
    | link target => simp [lookup_erase_self]
    | dir => exact absurd hl hnd

theorem unlinkAction_lookup_ne {fs : FS} {d q : FsPath} (s : FsPath) (c : String)
    (hq : q ≠ d) :
    ((unlinkAction s d c fs).1).lookup q = fs.lookup q := by
  simp only [unlinkAction, removeSymlinkFile, removeFile]
  cases hl : fs.lookup d with
  | none => rfl
  | some node =>
    cases node with
    | file content => simp [lookup_erase_ne _ _ _ hq]
    | link target => simp [lookup_erase_ne _ _ _ hq]
    | dir => rfl

theorem unlink_walk_effect (srcRoot dstRoot : FsPath) :
    ∀ (ts : List SrcTree) (rel : FsPath) (fs : FS),
      wfListB ts = true →
      (∀ r ∈ treeDirsList ts rel, fs.lookup (dstRoot ++ r) = some .dir) →
      (∀ rc ∈ treeFilesList ts rel, fs.lookup (dstRoot ++ rc.1) ≠ some .dir) →
      (unlinkWalk srcRoot dstRoot ts rel fs).err = none
      ∧ (∀ q : FsPath, (∀ rc ∈ treeFilesList ts rel, q ≠ dstRoot ++ rc.1) →
          (unlinkWalk srcRoot dstRoot ts rel fs).fs.lookup q = fs.lookup q)
      ∧ (∀ rc ∈ treeFilesList ts rel,
          (unlinkWalk srcRoot dstRoot ts rel fs).fs.lookup (dstRoot ++ rc.1)
            = none)
  | [], rel, fs => by
    intro _ _ _
    refine ⟨rfl, fun q _ => rfl, ?_⟩
    simp [treeFilesList]
  | .file n c :: ts, rel, fs => by
    intro hwf hdirs hnfd
    obtain ⟨_, hwts, hname⟩ := wf_cons.mp hwf
    simp only [SrcTree.name] at hname
    have hndh : fs.lookup (dstRoot ++ (rel ++ [n])) ≠ some .dir :=
      hnfd _ (mem_files_cons_file.mpr (Or.inl rfl))
    have hdirs' : ∀ r ∈ treeDirsList ts rel,
        ((unlinkAction (srcRoot ++ (rel ++ [n])) (dstRoot ++ (rel ++ [n])) c
          fs).1).lookup (dstRoot ++ r) = some .dir := by
      intro r hr
      rw [unlinkAction_lookup_ne _ _
        (append_ne_of_ne (pathsOf_ne_head hname (dir_mem_pathsOf hr)))]
      exact hdirs _ (mem_dirs_cons_file.mpr hr)
    have hnfd' : ∀ rc ∈ treeFilesList ts rel,
        ((unlinkAction (srcRoot ++ (rel ++ [n])) (dstRoot ++ (rel ++ [n])) c
          fs).1).lookup (dstRoot ++ rc.1) ≠ some .dir := by
      intro rc hrc
      rw [unlinkAction_lookup_ne _ _
        (append_ne_of_ne (pathsOf_ne_head hname (file_fst_mem_pathsOf hrc)))]
      exact hnfd _ (mem_files_cons_file.mpr (Or.inr hrc))
    obtain ⟨e2, f2, l2⟩ := unlink_walk_effect srcRoot dstRoot ts rel
      ((unlinkAction (srcRoot ++ (rel ++ [n])) (dstRoot ++ (rel ++ [n])) c
        fs).1) hwts hdirs' hnfd'
    have hstep : unlinkWalk srcRoot dstRoot (.file n c :: ts) rel fs =
        ⟨(unlinkWalk srcRoot dstRoot ts rel
            ((unlinkAction (srcRoot ++ (rel ++ [n])) (dstRoot ++ (rel ++ [n]))
              c fs).1)).fs,
         (unlinkWalk srcRoot dstRoot ts rel
            ((unlinkAction (srcRoot ++ (rel ++ [n])) (dstRoot ++ (rel ++ [n]))
              c fs).1)).err,
         (srcRoot ++ (rel ++ [n]), dstRoot ++ (rel ++ [n])) ::
           (unlinkWalk srcRoot dstRoot ts rel
              ((unlinkAction (srcRoot ++ (rel ++ [n])) (dstRoot ++ (rel ++ [n]))
                c fs).1)).visited⟩ := by
      simp [unlinkWalk, walkTreeList, walkTree, pathIgnored_nil,
        dropRoot_append, unlinkAction_err_none]
    refine ⟨?_, ?_, ?_⟩
    · rw [hstep]
      exact e2
    · intro q hq
      rw [hstep]
      rw [f2 q (fun rc hrc => hq _ (mem_files_cons_file.mpr (Or.inr hrc)))]
      exact unlinkAction_lookup_ne _ _ (hq _ (mem_files_cons_file.mpr (Or.inl rfl)))
    · intro rc hrc
      rcases mem_files_cons_file.mp hrc with he | hm
      · subst he
        rw [hstep]
        rw [f2 _ (fun rc' hrc' =>
          append_ne_of_ne (pathsOf_ne_head hname (file_fst_mem_pathsOf hrc')).symm)]
        exact unlinkAction_lookup_self _ _ hndh
      · rw [hstep]
        exact l2 rc hm
  | .dir n cs :: ts, rel, fs => by
    intro hwf hdirs hnfd
    obtain ⟨hwt, hwts, hname⟩ := wf_cons.mp hwf
    simp only [SrcTree.name] at hname
    have hwcs : wfListB cs = true := by simpa [SrcTree.wfB] using hwt
    have hdr : fs.lookup (dstRoot ++ (rel ++ [n])) = some .dir :=
      hdirs _ (mem_dirs_cons_dir.mpr (Or.inl rfl))
    obtain ⟨e1, f1, l1⟩ := unlink_walk_effect srcRoot dstRoot cs (rel ++ [n]) fs
      hwcs
      (fun r hr => hdirs _ (mem_dirs_cons_dir.mpr (Or.inr (Or.inl hr))))
      (fun rc hrc => hnfd _ (mem_files_cons_dir.mpr (Or.inl hrc)))
    have hdirs_ts : ∀ r ∈ treeDirsList ts rel,
        (unlinkWalk srcRoot dstRoot cs (rel ++ [n]) fs).fs.lookup (dstRoot ++ r)
          = some .dir := by
      intro r hr
      rw [f1 _ (fun rc hrc => (append_ne_of_ne
        (pathsOf_child_ne hname (file_fst_mem_pathsOf hrc)
          (dir_mem_pathsOf hr))).symm)]
      exact hdirs _ (mem_dirs_cons_dir.mpr (Or.inr (Or.inr hr)))
    have hnfd_ts : ∀ rc ∈ treeFilesList ts rel,
        (unlinkWalk srcRoot dstRoot cs (rel ++ [n]) fs).fs.lookup
          (dstRoot ++ rc.1) ≠ some .dir := by
      intro rc hrc
      rw [f1 _ (fun rc' hrc' => (append_ne_of_ne
        (pathsOf_child_ne hname (file_fst_mem_pathsOf hrc')
          (file_fst_mem_pathsOf hrc))).symm)]
      exact hnfd _ (mem_files_cons_dir.mpr (Or.inr hrc))
    obtain ⟨e2, f2, l2⟩ := unlink_walk_effect srcRoot dstRoot ts rel
      (unlinkWalk srcRoot dstRoot cs (rel ++ [n]) fs).fs hwts hdirs_ts hnfd_ts
    have hstep : unlinkWalk srcRoot dstRoot (.dir n cs :: ts) rel fs =
        ⟨(unlinkWalk srcRoot dstRoot ts rel
            (unlinkWalk srcRoot dstRoot cs (rel ++ [n]) fs).fs).fs,
         (unlinkWalk srcRoot dstRoot ts rel
            (unlinkWalk srcRoot dstRoot cs (rel ++ [n]) fs).fs).err,
         (unlinkWalk srcRoot dstRoot cs (rel ++ [n]) fs).visited ++
           (unlinkWalk srcRoot dstRoot ts rel
              (unlinkWalk srcRoot dstRoot cs (rel ++ [n]) fs).fs).visited⟩ := by
      have he1 := e1
      simp only [unlinkWalk] at he1 ⊢
      simp [walkTreeList, walkTree, pathIgnored_nil, createDirAll, hdr, he1]
    refine ⟨?_, ?_, ?_⟩
    · rw [hstep]
      exact e2
    · intro q hq
      rw [hstep]
      rw [f2 q (fun rc hrc => hq _ (mem_files_cons_dir.mpr (Or.inr hrc)))]
      exact f1 q (fun rc hrc => hq _ (mem_files_cons_dir.mpr (Or.inl hrc)))
    · intro rc hrc
      rcases mem_files_cons_dir.mp hrc with hm | hm
      · rw [hstep]
        rw [f2 _ (fun rc' hrc' => append_ne_of_ne
          (pathsOf_child_ne hname (file_fst_mem_pathsOf hm)
            (file_fst_mem_pathsOf hrc')))]
        exact l1 rc hm
      · rw [hstep]
        exact l2 rc hm
termination_by ts => sizeOf ts

/-- C9: for every source tree walked by the engine with an action that never
reports an error (as the symlink and unlink actions never do), a walk that
finishes without error invokes the action exactly once for every regular file
whose relative path does not match the ignore patterns, at the source path
paired with the mirrored destination path (the destination root joined with
the file's path relative to the source root); the source root itself is never
passed to the action (minimum depth 1); and mirrored directory creation is
idempotent: an existing directory is not an error. -/
theorem walk_files_spec (act : WalkAction) (ign : String → Bool)
    (srcRoot dstRoot : FsPath) (ts : List SrcTree) (fs : FS)
    (hact : ∀ s d c f, (act s d c f).2 = none)
    (hwf : wfListB ts = true)
    (herr : (walkTreeList act ign srcRoot dstRoot ts [] fs).err = none) :
    (walkTreeList act ign srcRoot dstRoot ts [] fs).visited =
      (treeFilesList ts []).filterMap (mirrorF ign srcRoot dstRoot)
    ∧ (∀ rc ∈ treeFilesList ts [], pathIgnored ign rc.1 = false →
        (walkTreeList act ign srcRoot dstRoot ts [] fs).visited.count
          (srcRoot ++ rc.1, dstRoot ++ rc.1) = 1)
    ∧ (∀ pr ∈ (walkTreeList act ign srcRoot dstRoot ts [] fs).visited,
        pr.1 ≠ srcRoot)
    ∧ (∀ (f : FS) (p : FsPath),
        f.lookup p = some .dir → createDirAll f p = .ok f) := by
  have hv := walk_visited_eq act ign srcRoot dstRoot hact ts [] fs herr
  refine ⟨hv, ?_, ?_, ?_⟩
  · intro rc hrc hni
    rw [hv]
    exact count_mirror_one ign srcRoot dstRoot rc.1 (treeFilesList ts [])
      (nodupFiles ts [] hwf) (List.mem_map_of_mem _ hrc) hni
  · intro pr hpr
    rw [hv] at hpr
    obtain ⟨rc, hrc, hmf⟩ := List.mem_filterMap.mp hpr
    obtain ⟨t, _, suf, hsuf⟩ := pathsExtend ts [] rc.1 (file_fst_mem_pathsOf hrc)
    simp only [List.nil_append] at hsuf
    by_cases hg : pathIgnored ign rc.1 = true
    · simp [mirrorF, hg] at hmf
    · have hg' : pathIgnored ign rc.1 = false := by simpa using hg
      simp only [mirrorF, hg', Bool.false_eq_true, if_false] at hmf
      have h1 : pr.1 = srcRoot ++ rc.1 :=
        (congrArg Prod.fst (Option.some.inj hmf)).symm
      rw [h1, hsuf]
      exact append_ne_self (by simp)
  · intro f p h
    simp [createDirAll, h]

/-- Witness for C9 at a concrete walk: a link walk over a source tree with a
subdirectory holding one linked file and one ignored file, starting from an
empty destination, visits exactly the non-ignored file at its mirrored path. -/
theorem walk_files_spec_witness :
    (walkTreeList (linkAction false) (ignMatcher ["skip"]) ["s"] ["d"]
        [.dir "sub" [.file "a.txt" "A", .file "skip" "B"]] [] []).visited =
      [(["s", "sub", "a.txt"], ["d", "sub", "a.txt"])] := by
  have h := walk_files_spec (linkAction false) (ignMatcher ["skip"]) ["s"] ["d"]
    [.dir "sub" [.file "a.txt" "A", .file "skip" "B"]] []
    (fun s d c f => linkAction_err_none false s d c f) (by decide) (by decide)
  rw [h.1]
  decide

/-- C7 counterexample: for a copy entry, uninstall (remove_dir, which calls
fs::remove_dir_all on the target) removes a pre-existing file under the target
that install (copy_dir) did not create, so the claim fails as stated. -/
theorem copy_uninstall_removes_preexisting :
    FS.lookup [(["s"], .dir), (["t"], .dir), (["t", "pre.txt"], .file "keep")]
      ["t", "pre.txt"] = some (.file "keep")
    ∧ (copy_dir ⟨fun r => [r]⟩ [.file "a.txt" "A"] "s" "t"
        [(["s"], .dir), (["t"], .dir), (["t", "pre.txt"], .file "keep")]).2 = none
    ∧ (remove_dir ⟨fun r => [r]⟩ "t"
        (copy_dir ⟨fun r => [r]⟩ [.file "a.txt" "A"] "s" "t"
          [(["s"], .dir), (["t"], .dir),
           (["t", "pre.txt"], .file "keep")]).1).1.lookup ["t", "pre.txt"]
        = none :=
  ⟨rfl, rfl, rfl⟩

/-- C7 (amended): for a symlink entry with no ignore patterns whose mirrored
destination paths are all initially vacant, install followed by uninstall
succeeds and removes exactly the symlinks that install created: every path
other than the mirrored directory skeleton holds afterwards exactly what it
held before, and the mirrored directories created by install remain; for a
copy entry, uninstall (remove_dir) removes the entire resolved target
directory tree, pre-existing files included, and leaves every path outside
the target untouched. -/
theorem roundtrip_amended (force : Bool) (srcRoot dstRoot : FsPath)
    (ts : List SrcTree) (fs0 : FS) (env : PathEnv) (target : String)
    (fsC : FS) (node : FsNode)
    (hwf : wfListB ts = true)
    (hvac : ∀ p ∈ pathsOf ts [], fs0.lookup (dstRoot ++ p) = none)
    (htgt : fsC.lookup (env.resolve target) = some node) :
    (link_files ts srcRoot dstRoot [] force fs0).err = none
    ∧ (unlink_files ts srcRoot dstRoot
        (link_files ts srcRoot dstRoot [] force fs0).fs).err = none
    ∧ (∀ q : FsPath, (∀ r ∈ treeDirsList ts [], q ≠ dstRoot ++ r) →
        (unlink_files ts srcRoot dstRoot
          (link_files ts srcRoot dstRoot [] force fs0).fs).fs.lookup q
          = fs0.lookup q)
    ∧ (∀ r ∈ treeDirsList ts [],
        (unlink_files ts srcRoot dstRoot
          (link_files ts srcRoot dstRoot [] force fs0).fs).fs.lookup
          (dstRoot ++ r) = some .dir)
    ∧ (remove_dir env target fsC).2 = none
    ∧ (∀ q : FsPath, isUnder (env.resolve target) q = true →
        (remove_dir env target fsC).1.lookup q = none)
    ∧ (∀ q : FsPath, isUnder (env.resolve target) q = false →
        (remove_dir env target fsC).1.lookup q = fsC.lookup q) := by
  obtain ⟨e1, f1, d1, l1⟩ := link_walk_effect force srcRoot dstRoot ts [] fs0 hwf hvac
  have hnfd1 : ∀ rc ∈ treeFilesList ts [],
      (linkWalk force srcRoot dstRoot ts [] fs0).fs.lookup (dstRoot ++ rc.1)
        ≠ some .dir := by
    intro rc hrc
    rw [l1 rc hrc]
    simp
  obtain ⟨e2, f2, l2⟩ := unlink_walk_effect srcRoot dstRoot ts []
    (linkWalk force srcRoot dstRoot ts [] fs0).fs hwf d1 hnfd1
  have hrd : remove_dir env target fsC =
      (fsC.filter (fun e => !(isUnder (env.resolve target) e.1)), none) := by
    simp [remove_dir, expand_path, removeDirAll, htgt]
  have hconv1 : link_files ts srcRoot dstRoot [] force fs0
      = linkWalk force srcRoot dstRoot ts [] fs0 := rfl
  have hconv2 : ∀ f : FS, unlink_files ts srcRoot dstRoot f
      = unlinkWalk srcRoot dstRoot ts [] f := fun _ => rfl
  simp only [hconv1, hconv2]
  refine ⟨e1, e2, ?_, ?_, ?_, ?_, ?_⟩
  · intro q hq
    by_cases hqf : ∃ rc ∈ treeFilesList ts [], q = dstRoot ++ rc.1
    · obtain ⟨rc, hrc, hqe⟩ := hqf
      subst hqe
      rw [l2 rc hrc]
      exact (hvac _ (file_fst_mem_pathsOf hrc)).symm
    · push_neg at hqf
      rw [f2 q hqf]
      refine f1 q ?_
      intro p hp
      rcases List.mem_append.mp hp with hd | hf
      · exact hq _ hd
      · obtain ⟨rc, hrc, hfst⟩ := List.mem_map.mp hf
        exact hfst ▸ hqf rc hrc
  · intro r hr
    rw [f2 _ (fun rc hrc =>
      append_ne_of_ne (dirs_ne_files ts [] hwf r hr rc hrc))]
    exact d1 r hr
  · rw [hrd]
  · intro q hu
    rw [hrd]
    rw [lookup_filter_under]
    simp [hu]
  · intro q hu
    rw [hrd]
    rw [lookup_filter_under]
    simp [hu]

/-- Witness for C7 (amended) at a concrete input: a one-file symlink entry
installed and uninstalled over a destination holding an unrelated file leaves
that file in place, and a copy uninstall empties the resolved target. -/
theorem roundtrip_amended_witness :
    (unlink_files [.file "a.txt" "A"] ["s"] ["d"]
        (link_files [.file "a.txt" "A"] ["s"] ["d"] [] false
          [(["pre"], .file "k")]).fs).fs.lookup ["pre"]
      = FS.lookup [(["pre"], .file "k")] ["pre"]
    ∧ (remove_dir ⟨fun r => [r]⟩ "t"
        [(["t"], .dir), (["t", "pre.txt"], .file "keep")]).1.lookup
        ["t", "pre.txt"] = none := by
  have h := roundtrip_amended false ["s"] ["d"] [.file "a.txt" "A"]
    [(["pre"], .file "k")] ⟨fun r => [r]⟩ "t"
    [(["t"], .dir), (["t", "pre.txt"], .file "keep")] .dir
    (by decide) (by decide) rfl
  exact ⟨h.2.2.1 ["pre"] (by decide), h.2.2.2.2.2.1 ["t", "pre.txt"] (by decide)⟩

/-- C10: SymlinkCommand::update returns exactly the same result and performs
exactly the same filesystem effects as SymlinkCommand::install on the same
inputs: its body is the call self.install(args, config). -/
theorem symlink_update_is_install (env : PathEnv) (ts : List SrcTree)
    (args : ConfigValue) (config_dir : String) (fs : FS) :
    symlinkUpdate env ts args config_dir fs = symlinkInstall env ts args config_dir fs :=
  rfl
